import Mathlib

/-!
Verification development for the PdfToExplainableVideo slideshow-to-video
compositor.  Each definition is a shallow embedding of a function of the
repository (file and symbol named in its doc comment); the theorems settle
the frozen claims C1..C10 about the specification.

Conventions of the embedding: JavaScript strings are Lean `String`s,
byte buffers are `List ℕ` (each entry `< 256`), floating point
measurements and durations are modelled as rationals `ℚ`, fallible
operations return `Except`.
-/

namespace PdfVideo

/-! ### NarrationSynthesizer: input sanitization (src/services/geminiService.ts, generateSpeechForText) -/

/-- Embeds the fixed placeholder phrase of
`src/services/geminiService.ts` line 58: `"（説明なし）"`. -/
def ttsPlaceholder : String := "（説明なし）"

/-- Embeds `src/services/geminiService.ts` line 58:
`const safeText = text.trim().length > 0 ? text.trim() : "（説明なし）";`. -/
def safeText (text : String) : String :=
  if 0 < text.trim.length then text.trim else ttsPlaceholder

/-- Embeds the script actually submitted to the voice service,
`src/services/geminiService.ts` line 63: the fixed reading instruction
followed by `safeText`. -/
def submittedScript (text : String) : String :=
  "落ち着いたトーンで丁寧に読み上げてください： " ++ safeText text

theorem safeText_ne_empty (text : String) : safeText text ≠ "" := by
  unfold safeText
  split
  · intro h
    rename_i hlen
    rw [h] at hlen
    simp at hlen
  · intro h
    exact absurd h (by decide)

theorem safeText_eq_ite (text : String) :
    safeText text = if text.trim = "" then ttsPlaceholder else text.trim := by
  unfold safeText
  by_cases h : text.trim = ""
  · rw [h]; simp
  · have hd : text.trim.data ≠ [] := fun hnil => h (String.ext hnil)
    have hl : 0 < text.trim.length := List.length_pos.mpr hd
    rw [if_pos hl, if_neg h]

/-- Claim C3: narration synthesis is never invoked with an empty string:
if the input text trims to the empty string, the fixed placeholder phrase
is submitted to the voice service in its place; otherwise the trimmed
text itself is submitted. -/
theorem narration_input_sanitized (text : String) :
    safeText text ≠ "" ∧
    safeText text = (if text.trim = "" then ttsPlaceholder else text.trim) :=
  ⟨safeText_ne_empty text, safeText_eq_ite text⟩

/-- Witness for C3: a whitespace-only script is replaced by the fixed
placeholder phrase and the submitted script portion is non-empty. -/
theorem narration_input_sanitized_witness : safeText "   " ≠ "" :=
  (narration_input_sanitized "   ").1

/-! ### RecordingSink: codec negotiation (src/App.tsx, getSupportedMimeType / createVideo) -/

/-- Embeds the preference-ordered codec list of `src/App.tsx`
(getSupportedMimeType), lines 673-678. -/
def codecPreferences : List String :=
  ["video/webm;codecs=vp9,opus", "video/webm;codecs=vp8,opus", "video/webm", "video/mp4"]

/-- Embeds `src/App.tsx` getSupportedMimeType (lines 672-683): return the
first entry of `codecPreferences` that `MediaRecorder.isTypeSupported`
accepts, and the empty string when none is accepted.  The runtime
predicate is abstracted as `isTypeSupported : String → Bool`. -/
def getSupportedMimeType (isTypeSupported : String → Bool) : String :=
  (codecPreferences.find? isTypeSupported).getD ""

/-- Embeds the guard of `src/App.tsx` createVideo (lines 712-713):
`const mimeType = getSupportedMimeType();`
`if (!mimeType) throw new Error("このブラウザは動画の録画をサポートしていません。");`
The recorder is constructed (and recording started) only on the `ok`
branch. -/
def selectRecorderMime (isTypeSupported : String → Bool) : Except String String :=
  let mimeType := getSupportedMimeType isTypeSupported
  if mimeType = "" then
    Except.error "このブラウザは動画の録画をサポートしていません。"
  else
    Except.ok mimeType

theorem selectRecorderMime_none (isTypeSupported : String → Bool)
    (h : ∀ t ∈ codecPreferences, isTypeSupported t = false) :
    selectRecorderMime isTypeSupported =
      Except.error "このブラウザは動画の録画をサポートしていません。" := by
  have hfind : codecPreferences.find? isTypeSupported = none :=
    List.find?_eq_none.mpr (fun x hx => by simp [h x hx])
  simp [selectRecorderMime, getSupportedMimeType, hfind]

theorem selectRecorderMime_first (isTypeSupported : String → Bool)
    (i : ℕ) (hi : i < codecPreferences.length)
    (hyes : isTypeSupported (codecPreferences.getD i "") = true)
    (hno : ∀ j < i, isTypeSupported (codecPreferences.getD j "") = false) :
    selectRecorderMime isTypeSupported = Except.ok (codecPreferences.getD i "") := by
  have hlen : codecPreferences.length = 4 := by decide
  rw [hlen] at hi
  interval_cases i
  · simp only [codecPreferences, List.getD_cons_zero, List.getD_cons_succ] at hyes ⊢
    simp [selectRecorderMime, getSupportedMimeType, codecPreferences, List.find?, hyes]
  · have h0 := hno 0 (by omega)
    simp only [codecPreferences, List.getD_cons_zero, List.getD_cons_succ] at hyes h0 ⊢
    simp [selectRecorderMime, getSupportedMimeType, codecPreferences, List.find?, hyes, h0]
  · have h0 := hno 0 (by omega)
    have h1 := hno 1 (by omega)
    simp only [codecPreferences, List.getD_cons_zero, List.getD_cons_succ] at hyes h0 h1 ⊢
    simp [selectRecorderMime, getSupportedMimeType, codecPreferences, List.find?, hyes, h0, h1]
  · have h0 := hno 0 (by omega)
    have h1 := hno 1 (by omega)
    have h2 := hno 2 (by omega)
    simp only [codecPreferences, List.getD_cons_zero, List.getD_cons_succ] at hyes h0 h1 h2 ⊢
    simp [selectRecorderMime, getSupportedMimeType, codecPreferences, List.find?,
      hyes, h0, h1, h2]

/-- Claim C7: recording always selects the first entry of the
preference-ordered codec list (vp9+opus webm, then vp8+opus webm, then
plain webm, then mp4) that the runtime encoder reports as supported, and
when none of the list is supported the run fails with the
unsupported-encoder error before recording starts. -/
theorem codec_negotiation (isTypeSupported : String → Bool) :
    (∀ i, i < codecPreferences.length →
      isTypeSupported (codecPreferences.getD i "") = true →
      (∀ j < i, isTypeSupported (codecPreferences.getD j "") = false) →
      selectRecorderMime isTypeSupported = Except.ok (codecPreferences.getD i "")) ∧
    ((∀ t ∈ codecPreferences, isTypeSupported t = false) →
      selectRecorderMime isTypeSupported =
        Except.error "このブラウザは動画の録画をサポートしていません。") :=
  ⟨fun i hi hyes hno => selectRecorderMime_first isTypeSupported i hi hyes hno,
   fun h => selectRecorderMime_none isTypeSupported h⟩

/-- Witness for C7: an encoder supporting only plain `video/webm` (the
third preference) makes negotiation select exactly that entry. -/
theorem codec_negotiation_witness :
    selectRecorderMime (fun s => s == "video/webm") = Except.ok "video/webm" :=
  (codec_negotiation (fun s => s == "video/webm")).1 2 (by decide) (by decide)
    (by decide)

/-! ### Analysis outer join (src/App.tsx, startAnalysis, PDF branch, lines 72-83) -/

/-- Embeds one entry of the analysis service's JSON result
(`{pageIndex: int, title: string, notes: string}`); `pageIndex` is an
arbitrary integer supplied by the upstream service. -/
structure AnalysisSlide where
  pageIndex : Int
  title : String
  notes : String

/-- Embeds the `Slide` record built by `startAnalysis`
(src/types.ts / src/App.tsx lines 76-81). -/
structure Slide where
  pageIndex : ℕ
  title : String
  notes : String
  imageUrl : Option String

/-- Embeds the JavaScript expression `s || d` for strings: the empty
string is the only falsy string, so it is replaced by the default. -/
def jsOrElse (s d : String) : String := if s = "" then d else s

/-- Embeds the placeholder title of src/App.tsx line 78:
`aiSlide?.title || moji-page ${i + 1}`. -/
def placeholderTitle (i : ℕ) : String := "ページ " ++ toString (i + 1)

/-- Embeds the placeholder notes of src/App.tsx line 79. -/
def placeholderNotes : String := "解説を生成できませんでした。"

/-- Embeds the outer-join loop of `startAnalysis` (src/App.tsx lines
73-82): for every page index `i < numPages`, look up the first analysis
entry with `pageIndex === i` and build a final slide, falling back to the
deterministic placeholder title/notes when the entry is missing (or its
field is empty, per JavaScript `||`). -/
def buildFinalSlides (resultSlides : List AnalysisSlide) (images : List String)
    (numPages : ℕ) : List Slide :=
  (List.range numPages).map fun (i : ℕ) =>
    match resultSlides.find? (fun s => s.pageIndex == (i : Int)) with
    | some aiSlide =>
      { pageIndex := i, title := jsOrElse aiSlide.title (placeholderTitle i),
        notes := jsOrElse aiSlide.notes placeholderNotes, imageUrl := images[i]? }
    | none =>
      { pageIndex := i, title := placeholderTitle i, notes := placeholderNotes,
        imageUrl := images[i]? }

theorem buildFinalSlides_length (r : List AnalysisSlide) (im : List String) (N : ℕ) :
    (buildFinalSlides r im N).length = N := by
  simp [buildFinalSlides]

theorem buildFinalSlides_map_pageIndex (r : List AnalysisSlide) (im : List String) (N : ℕ) :
    (buildFinalSlides r im N).map Slide.pageIndex = List.range N := by
  unfold buildFinalSlides
  rw [List.map_map]
  conv_rhs => rw [← List.map_id (List.range N)]
  refine List.map_congr_left ?_
  intro i _
  cases h : r.find? (fun s => s.pageIndex == (i : Int)) <;> simp [Function.comp, h]

theorem buildFinalSlides_missing (r : List AnalysisSlide) (im : List String) (N : ℕ)
    (i : ℕ) (hi : i < N) (hmiss : ∀ s ∈ r, s.pageIndex ≠ (i : Int)) :
    (buildFinalSlides r im N)[i]? =
      some { pageIndex := i, title := placeholderTitle i, notes := placeholderNotes,
             imageUrl := im[i]? } := by
  have hfind : r.find? (fun s => s.pageIndex == (i : Int)) = none :=
    List.find?_eq_none.mpr (fun x hx => by simp [hmiss x hx])
  unfold buildFinalSlides
  rw [List.getElem?_map, List.getElem?_range hi]
  simp [hfind]

/-- Claim C1: for every analysis result (a possibly partial, possibly
unordered slide list keyed by `pageIndex`) and every page count `N`, the
slide list produced by the PDF analysis step has exactly `N` entries
whose `pageIndex` values are `0..N-1`, each unique, in ascending order,
and any `pageIndex` missing from the analysis result is filled with the
deterministic placeholder title/notes pair — no page is dropped. -/
theorem analysis_outer_join (r : List AnalysisSlide) (im : List String) (N : ℕ) :
    (buildFinalSlides r im N).length = N ∧
    (buildFinalSlides r im N).map Slide.pageIndex = List.range N ∧
    ((buildFinalSlides r im N).map Slide.pageIndex).Nodup ∧
    List.Sorted (· < ·) ((buildFinalSlides r im N).map Slide.pageIndex) ∧
    (∀ i, i < N → (∀ s ∈ r, s.pageIndex ≠ (i : Int)) →
      (buildFinalSlides r im N)[i]? =
        some { pageIndex := i, title := placeholderTitle i, notes := placeholderNotes,
               imageUrl := im[i]? }) := by
  refine ⟨buildFinalSlides_length r im N, buildFinalSlides_map_pageIndex r im N, ?_, ?_, ?_⟩
  · rw [buildFinalSlides_map_pageIndex]
    exact List.nodup_range N
  · rw [buildFinalSlides_map_pageIndex]
    exact List.sorted_lt_range N
  · exact fun i hi hmiss => buildFinalSlides_missing r im N i hi hmiss

/-- Witness for C1: a 3-page document whose analysis result contains
pages 0 and 2 but not page 1 (and out of order) still yields 3 slides,
and slide 1 is the placeholder pair. -/
theorem analysis_outer_join_witness :
    (buildFinalSlides [⟨2, "T2", "N2"⟩, ⟨0, "T0", "N0"⟩] ["a", "b", "c"] 3)[1]? =
      some { pageIndex := 1, title := placeholderTitle 1, notes := placeholderNotes,
             imageUrl := (["a", "b", "c"] : List String)[1]? } :=
  (analysis_outer_join [⟨2, "T2", "N2"⟩, ⟨0, "T0", "N0"⟩] ["a", "b", "c"] 3).2.2.2.2
    1 (by decide) (by decide)

/-! ### Note editing and pre-recording re-synthesis (src/App.tsx, handleNoteChange lines 135-140 and createVideo lines 230-241) -/

/-- Slide state relevant to narration: the current script and the
(optional) cached synthesized clip.  The clip type is abstract. -/
structure SlideAV (α : Type) where
  notes : String
  audioBuffer : Option α

/-- Embeds `handleNoteChange` (src/App.tsx lines 135-140): copy the slide
array and replace entry `index` by a copy whose `notes` is the new text;
all other fields — including any previously cached `audioBuffer` — are
kept.  Modelled for an index within the array bounds (the UI only edits
existing slides). -/
def handleNoteChange {α : Type} (slides : List (SlideAV α)) (index : ℕ)
    (newNote : String) : List (SlideAV α) :=
  match slides[index]? with
  | some s => slides.set index { s with notes := newNote }
  | none => slides

/-- Embeds the synthesis loop of `createVideo` (src/App.tsx lines
233-241): before `recorder.start()` is reached, every slide's
`audioBuffer` is unconditionally reassigned
`generateSpeechForText(slide.notes)`; the synthesizer is abstracted as a
function of the submitted script. -/
def generateAllAudio {α : Type} (synthesize : String → α)
    (slides : List (SlideAV α)) : List (SlideAV α) :=
  slides.map fun s => { s with audioBuffer := some (synthesize s.notes) }

/-- Claim C9: at the moment recording starts every slide's audio clip was
synthesized from that slide's current notes text: the video-creation step
re-synthesizes audio for every slide (any previously cached buffer is
irrelevant to the result) before the recorder starts, so an edit to a
slide's notes never leaves a stale clip. -/
theorem audio_resynthesized_at_recording_start {α : Type} (synthesize : String → α)
    (slides : List (SlideAV α)) (index : ℕ) (newNote : String) :
    (∀ s ∈ generateAllAudio synthesize (handleNoteChange slides index newNote),
      s.audioBuffer = some (synthesize s.notes)) ∧
    generateAllAudio synthesize slides =
      generateAllAudio synthesize (slides.map fun s => { s with audioBuffer := none }) ∧
    (index < slides.length →
      (generateAllAudio synthesize (handleNoteChange slides index newNote))[index]? =
        some { notes := newNote, audioBuffer := some (synthesize newNote) }) := by
  refine ⟨?_, ?_, ?_⟩
  · intro s hs
    rcases List.mem_map.mp hs with ⟨a, _, rfl⟩
    rfl
  · unfold generateAllAudio
    rw [List.map_map]
    exact List.map_congr_left fun s _ => rfl
  · intro hlt
    have hget : slides[index]? = some (slides.get ⟨index, hlt⟩) := by
      rw [List.getElem?_eq_getElem hlt]
      rfl
    unfold generateAllAudio handleNoteChange
    rw [hget]
    rw [List.getElem?_map]
    rw [List.getElem?_set_self (by simpa using hlt)]
    rfl

/-- Witness for C9: a slide with a stale cached clip (`some 99`) edited
to the script `"hello"` records with a clip freshly synthesized from
`"hello"` (here the synthesizer is the length function, giving 5). -/
theorem audio_resynthesized_witness :
    (generateAllAudio String.length
        (handleNoteChange [⟨"old", some 99⟩] 0 "hello"))[0]? =
      some { notes := "hello", audioBuffer := some (String.length "hello") } :=
  (audio_resynthesized_at_recording_start String.length [⟨"old", some 99⟩] 0 "hello").2.2
    (by decide)

/-! ### Retry with exponential backoff (src/services/geminiService.ts, withRetry, lines 43-52) -/

/-- Embeds `withRetry(fn, retries = 3, delay = 1000)`
(src/services/geminiService.ts lines 43-52):
try `fn`; on failure, if `retries <= 0` rethrow the error, otherwise
sleep `delay` and recurse with `retries - 1` and `delay * 2`.
The wrapped operation is modelled as a function `fn` from the attempt
number to that attempt's outcome, `k` being the index of the current
attempt.  The result records the returned value or final thrown error,
the number of times `fn` was invoked, and the list of backoff delays
slept (milliseconds), in order. -/
def withRetry {ε α : Type} (fn : ℕ → Except ε α) :
    ℕ → ℕ → ℕ → Except ε α × ℕ × List ℕ
  | k, 0, _ =>
    match fn k with
    | Except.ok a => (Except.ok a, 1, [])
    | Except.error e => (Except.error e, 1, [])
  | k, retries + 1, delay =>
    match fn k with
    | Except.ok a => (Except.ok a, 1, [])
    | Except.error _ =>
      let rest := withRetry fn (k + 1) retries (delay * 2)
      (rest.1, rest.2.1 + 1, delay :: rest.2.2)

/-- `withRetry` at the call site's default arguments
(`retries = 3`, `delay = 1000`), starting from attempt 0. -/
def withRetryDefault {ε α : Type} (fn : ℕ → Except ε α) : Except ε α × ℕ × List ℕ :=
  withRetry fn 0 3 1000

theorem withRetry_calls_le {ε α : Type} (fn : ℕ → Except ε α) :
    ∀ (retries k delay : ℕ), (withRetry fn k retries delay).2.1 ≤ retries + 1 := by
  intro retries
  induction retries with
  | zero =>
    intro k delay
    unfold withRetry
    cases fn k <;> simp
  | succ n ih =>
    intro k delay
    unfold withRetry
    cases hfk : fn k with
    | ok a => simp
    | error e =>
      simp only []
      have h := ih (k + 1) (delay * 2)
      omega

theorem withRetry_all_fail {ε α : Type} (fn : ℕ → Except ε α) :
    ∀ (retries k delay : ℕ),
      (∀ j, j < retries → ∃ e, fn (k + j) = Except.error e) →
      (withRetry fn k retries delay).1 = fn (k + retries) := by
  intro retries
  induction retries with
  | zero =>
    intro k delay _
    unfold withRetry
    cases hfk : fn (k + 0) <;> simp only [Nat.add_zero] at hfk <;> simp [hfk]
  | succ n ih =>
    intro k delay h
    obtain ⟨e0, he0⟩ := h 0 (Nat.succ_pos n)
    rw [Nat.add_zero] at he0
    unfold withRetry
    rw [he0]
    simp only []
    have hrec := ih (k + 1) (delay * 2)
      (fun j hj => by
        obtain ⟨e, he⟩ := h (j + 1) (by omega)
        exact ⟨e, by rw [show k + 1 + j = k + (j + 1) by omega]; exact he⟩)
    rw [hrec, show k + 1 + n = k + (n + 1) by omega]

theorem withRetry_first_success {ε α : Type} (fn : ℕ → Except ε α) :
    ∀ (j k retries delay : ℕ) (v : α),
      j ≤ retries →
      (∀ i, i < j → ∃ e, fn (k + i) = Except.error e) →
      fn (k + j) = Except.ok v →
      (withRetry fn k retries delay).1 = Except.ok v := by
  intro j
  induction j with
  | zero =>
    intro k retries delay v _ _ hok
    rw [Nat.add_zero] at hok
    cases retries <;> (unfold withRetry; rw [hok])
  | succ m ih =>
    intro k retries delay v hle hfail hok
    obtain ⟨e0, he0⟩ := hfail 0 (Nat.succ_pos m)
    rw [Nat.add_zero] at he0
    cases retries with
    | zero => omega
    | succ r =>
      unfold withRetry
      rw [he0]
      simp only []
      refine ih (k + 1) r (delay * 2) v (by omega) ?_ ?_
      · intro i hi
        obtain ⟨e, he⟩ := hfail (i + 1) (by omega)
        exact ⟨e, by rw [show k + 1 + i = k + (i + 1) by omega]; exact he⟩
      · rw [show k + 1 + m = k + (m + 1) by omega]
        exact hok

theorem withRetry_delays_double {ε α : Type} (fn : ℕ → Except ε α) :
    ∀ (retries k delay i : ℕ),
      i < (withRetry fn k retries delay).2.2.length →
      (withRetry fn k retries delay).2.2.getD i 0 = delay * 2 ^ i := by
  intro retries
  induction retries with
  | zero =>
    intro k delay i hi
    unfold withRetry at hi ⊢
    cases hfk : fn k <;> rw [hfk] at hi <;> simp at hi
  | succ n ih =>
    intro k delay i hi
    unfold withRetry at hi ⊢
    cases hfk : fn k with
    | ok a => rw [hfk] at hi; simp at hi
    | error e =>
      rw [hfk] at hi
      simp only [] at hi ⊢
      cases i with
      | zero => simp
      | succ m =>
        simp only [List.getD_cons_succ, List.length_cons] at hi ⊢
        rw [ih (k + 1) (delay * 2) m (by omega)]
        rw [pow_succ]
        ring

/-- Claim C2: for every wrapped operation, the retry combinator at its
default arguments invokes the operation at most 4 times (initial attempt
plus up to 3 retries); if the first successful attempt occurs within
those attempts its value is returned; if all 4 attempts fail, the error
of the final attempt is surfaced; and every successive backoff delay
doubles from the 1000 ms base (delay before retry `i` is `1000 * 2 ^ i`).
In particular, an operation failing exactly twice and then succeeding
yields the successful value. -/
theorem retry_policy {ε α : Type} (fn : ℕ → Except ε α) :
    (withRetryDefault fn).2.1 ≤ 4 ∧
    (∀ (v : α) (j : ℕ), j ≤ 3 →
      (∀ i, i < j → ∃ e, fn i = Except.error e) →
      fn j = Except.ok v →
      (withRetryDefault fn).1 = Except.ok v) ∧
    (∀ e3 : ε, (∀ j, j < 3 → ∃ e, fn j = Except.error e) →
      fn 3 = Except.error e3 →
      (withRetryDefault fn).1 = Except.error e3) ∧
    (∀ i, i < (withRetryDefault fn).2.2.length →
      (withRetryDefault fn).2.2.getD i 0 = 1000 * 2 ^ i) := by
  refine ⟨withRetry_calls_le fn 3 0 1000, ?_, ?_, ?_⟩
  · intro v j hj hfail hok
    exact withRetry_first_success fn j 0 3 1000 v hj
      (by simpa using hfail) (by simpa using hok)
  · intro e3 hfail h3
    have h := withRetry_all_fail fn 3 0 1000 (by simpa using hfail)
    rw [withRetryDefault, h]
    simpa using h3
  · intro i hi
    exact withRetry_delays_double fn 3 0 1000 i hi

/-- Witness for C2: an operation that fails exactly twice and then
succeeds with 42 — the combinator returns the success without surfacing
an error. -/
theorem retry_policy_witness :
    (withRetryDefault
        (fun k => if k < 2 then Except.error "fail" else Except.ok 42)).1 =
      Except.ok 42 :=
  (retry_policy (fun k => if k < 2 then Except.error "fail" else Except.ok 42)).2.1
    42 2 (by omega)
    (fun i hi => ⟨"fail", by simp [hi]⟩)
    (by simp)

/-! ### Recording buffer (src/App.tsx, createVideo, lines 719-727) -/

/-- Embeds the `ondataavailable` handler of `createVideo` (src/App.tsx
lines 720-722): `if (e.data && e.data.size > 0) chunks.push(e.data);`.
A chunk is modelled by its byte contents; `e.data` may be absent (null),
hence `Option`.  The handler appends only a present, non-empty chunk. -/
def appendChunk (chunks : List (List ℕ)) (eData : Option (List ℕ)) : List (List ℕ) :=
  match eData with
  | some d => if 0 < d.length then chunks ++ [d] else chunks
  | none => chunks

/-- The chunk buffer accumulated over a run of delivered encoder events,
in arrival order, starting from the empty buffer (`const chunks = []`,
src/App.tsx line 719). -/
def accumulateChunks (events : List (Option (List ℕ))) : List (List ℕ) :=
  events.foldl appendChunk []

/-- Embeds the `onstop` handler (src/App.tsx lines 724-725): the single
output blob is built only at stop, as the concatenation
`new Blob(chunks, { type: mimeType })` of the accumulated chunks. -/
def finalBlob (events : List (Option (List ℕ))) : List ℕ :=
  (accumulateChunks events).flatten

theorem foldl_appendChunk (events : List (Option (List ℕ))) :
    ∀ acc, events.foldl appendChunk acc =
      acc ++ ((events.filterMap id).filter fun d => 0 < d.length) := by
  induction events with
  | nil => intro acc; simp
  | cons e es ih =>
    intro acc
    cases e with
    | none => simp [appendChunk, ih]
    | some d =>
      by_cases hd : 0 < d.length
      · simp [appendChunk, hd, ih, List.append_assoc]
      · simp [appendChunk, hd, ih]

/-- Claim C8: every encoded chunk appended to the recording buffer has
size strictly greater than zero — empty or absent chunks delivered by
the encoder are ignored, never appended as zero-length fragments — and
the single output blob is the concatenation of the accumulated chunks,
produced only at stop. -/
theorem recording_buffer (events : List (Option (List ℕ))) :
    accumulateChunks events =
      ((events.filterMap id).filter fun d => 0 < d.length) ∧
    (∀ c ∈ accumulateChunks events, 0 < c.length) ∧
    finalBlob events =
      ((events.filterMap id).filter fun d => 0 < d.length).flatten := by
  have hacc : accumulateChunks events =
      ((events.filterMap id).filter fun d => 0 < d.length) := by
    unfold accumulateChunks
    simpa using foldl_appendChunk events []
  refine ⟨hacc, ?_, ?_⟩
  · intro c hc
    rw [hacc] at hc
    exact of_decide_eq_true (List.mem_filter.mp hc).2
  · unfold finalBlob
    rw [hacc]

/-- Witness for C8: a run delivering an empty chunk, a null event and the
chunk `[5, 6]` buffers only `[5, 6]` (which is non-empty) and emits the
blob `[5, 6]`. -/
theorem recording_buffer_witness :
    (0 : ℕ) < ([5, 6] : List ℕ).length ∧
      finalBlob [some ([] : List ℕ), none, some [5, 6]] = [5, 6] :=
  ⟨(recording_buffer [some [], none, some [5, 6]]).2.1 [5, 6] (by decide),
   by rw [(recording_buffer [some [], none, some [5, 6]]).2.2]; decide⟩

/-! ### Timeline hold interval (src/App.tsx, createVideo, lines 278-287) -/

/-- Embeds the fixed page-transition margin of src/App.tsx line 283: the
`+ 1000` trailing-silence pad (milliseconds) added after each slide's
clip. -/
def pageMarginMs : ℚ := 1000

/-- Embeds the hold interval of the recording loop (src/App.tsx lines
278-287): the frame is held from `slideStartTime` until
`slideStartTime + (duration * 1000) + 1000`, where `duration` is the
slide's `audioBuffer.duration` in seconds. -/
def slideHoldMs (duration : ℚ) : ℚ := duration * 1000 + pageMarginMs

/-- The scheduled total duration of the recording: the sum of the hold
intervals over the slides' audio durations, in order. -/
def totalScheduledMs (durations : List ℚ) : ℚ :=
  (durations.map slideHoldMs).sum

theorem totalScheduledMs_eq (durations : List ℚ) :
    totalScheduledMs durations =
      durations.sum * 1000 + pageMarginMs * durations.length := by
  induction durations with
  | nil => simp [totalScheduledMs]
  | cons d ds ih =>
    unfold totalScheduledMs at ih ⊢
    simp only [List.map_cons, List.sum_cons, List.length_cons]
    rw [ih]
    unfold slideHoldMs
    push_cast
    ring

theorem totalScheduledMs_jitter (ε : ℚ) :
    ∀ (actual durations : List ℚ),
      List.Forall₂ (fun a d => |a - slideHoldMs d| ≤ ε) actual durations →
      |actual.sum - totalScheduledMs durations| ≤ ε * durations.length := by
  intro actual durations h
  induction h with
  | nil => simp [totalScheduledMs]
  | @cons a d as ds h1 h2 ih =>
    unfold totalScheduledMs at ih ⊢
    simp only [List.sum_cons, List.map_cons, List.length_cons]
    have key : a + (as.sum) - (slideHoldMs d + (ds.map slideHoldMs).sum) =
        (a - slideHoldMs d) + (as.sum - (ds.map slideHoldMs).sum) := by ring
    rw [key]
    calc |(a - slideHoldMs d) + (as.sum - (ds.map slideHoldMs).sum)|
        ≤ |a - slideHoldMs d| + |as.sum - (ds.map slideHoldMs).sum| := abs_add _ _
      _ ≤ ε + ε * ds.length := add_le_add h1 ih
      _ = ε * (ds.length + 1) := by ring
      _ = ε * ((ds.length : ℕ) + 1 : ℕ) := by push_cast; ring

/-- Claim C6: during recording each slide's frame-hold interval equals
that slide's audio-clip duration plus the fixed trailing margin (1000 ms
— strictly more than the bare clip length), and consequently the total
recorded duration is the sum over slides of (duration + margin): if each
actual per-slide hold deviates from its scheduled hold by at most ε, the
total deviates from the scheduled total by at most ε times the slide
count. -/
theorem slide_hold_and_total (durations actual : List ℚ) (ε : ℚ) :
    (∀ d : ℚ, slideHoldMs d = d * 1000 + pageMarginMs) ∧
    (∀ d : ℚ, d * 1000 < slideHoldMs d) ∧
    totalScheduledMs durations =
      durations.sum * 1000 + pageMarginMs * durations.length ∧
    (List.Forall₂ (fun a d => |a - slideHoldMs d| ≤ ε) actual durations →
      |actual.sum - totalScheduledMs durations| ≤ ε * durations.length) := by
  refine ⟨fun d => rfl, fun d => ?_, totalScheduledMs_eq durations,
    totalScheduledMs_jitter ε actual durations⟩
  unfold slideHoldMs pageMarginMs
  linarith

/-- Witness for C6: a single slide with a 2-second clip is scheduled for
3000 ms; an actual hold of 3100 ms (jitter 100 ms) keeps the total
within 100 ms of schedule. -/
theorem slide_hold_and_total_witness :
    |([(3100 : ℚ)].sum) - totalScheduledMs [(2 : ℚ)]| ≤
      (100 : ℚ) * (([(2 : ℚ)] : List ℚ).length) :=
  (slide_hold_and_total [(2 : ℚ)] [(3100 : ℚ)] 100).2.2.2
    (List.Forall₂.cons
      (by norm_num [slideHoldMs, pageMarginMs, abs_le]) List.Forall₂.nil)

/-! ### Text wrapping on the synthesized-layout path (src/App.tsx, drawFrame / wrapText, lines 187-207) -/

/-- The measured width of a glyph sequence: `ctx.measureText` is
modelled as an additive metric given by a per-glyph width assignment
`w` (one fixed font, widths independent of position). -/
def measureChars (w : Char → ℚ) (chars : List Char) : ℚ := (chars.map w).sum

/-- Embeds the loop of `wrapText` (src/App.tsx lines 188-200):
`text.split('')` yields single characters; at index `n` the character is
appended to the current `line` unless the widened test line would exceed
`maxWidth` and `n > 0`, in which case the current line is emitted and
the character starts a new line; the final line is pushed after the
loop. -/
def wrapTextAux (w : Char → ℚ) (maxWidth : ℚ) :
    List Char → List Char → ℕ → List (List Char)
  | [], line, _ => [line]
  | c :: rest, line, n =>
    if measureChars w (line ++ [c]) > maxWidth ∧ 0 < n then
      line :: wrapTextAux w maxWidth rest [c] (n + 1)
    else
      wrapTextAux w maxWidth rest (line ++ [c]) (n + 1)

/-- Embeds `wrapText(text, maxWidth)` (src/App.tsx lines 187-203):
run the loop over the characters of `text`, starting from the empty
line at index 0. -/
def wrapText (w : Char → ℚ) (text : String) (maxWidth : ℚ) : List String :=
  (wrapTextAux w maxWidth text.data [] 0).map List.asString

/-- The measured width of a produced line (`ctx.measureText(line)`). -/
def measureText (w : Char → ℚ) (s : String) : ℚ := measureChars w s.data

/-- Embeds the draw step (src/App.tsx lines 204-207):
`lines.slice(0, 5)` — at most 5 wrapped lines are drawn, the rest are
truncated. -/
def drawnNoteLines (w : Char → ℚ) (text : String) (maxWidth : ℚ) : List String :=
  (wrapText w text maxWidth).take 5

theorem wrapTextAux_flatten (w : Char → ℚ) (maxWidth : ℚ) :
    ∀ (chars line : List Char) (n : ℕ),
      (wrapTextAux w maxWidth chars line n).flatten = line ++ chars := by
  intro chars
  induction chars with
  | nil =>
    intro line n
    simp [wrapTextAux]
  | cons c rest ih =>
    intro line n
    unfold wrapTextAux
    by_cases hc : measureChars w (line ++ [c]) > maxWidth ∧ 0 < n
    · rw [if_pos hc]
      simp [ih]
    · rw [if_neg hc]
      rw [ih]
      simp

theorem wrapTextAux_ne_nil (w : Char → ℚ) (maxWidth : ℚ) :
    ∀ (chars line : List Char) (n : ℕ), wrapTextAux w maxWidth chars line n ≠ [] := by
  intro chars
  induction chars with
  | nil =>
    intro line n
    simp [wrapTextAux]
  | cons c rest ih =>
    intro line n
    unfold wrapTextAux
    by_cases hc : measureChars w (line ++ [c]) > maxWidth ∧ 0 < n
    · rw [if_pos hc]
      simp
    · rw [if_neg hc]
      exact ih (line ++ [c]) (n + 1)

/-- Claim C10: concatenating in order the lines returned by the
text-wrapping routine yields exactly the input string — wrapping never
drops, duplicates or reorders characters (loss can occur only in the
later draw step's take-5 truncation) — and the result always contains at
least one line, a single empty line for the empty string. -/
theorem wrap_concat_id (w : Char → ℚ) (text : String) (maxWidth : ℚ) :
    ((wrapText w text maxWidth).map String.data).flatten = text.data ∧
    wrapText w text maxWidth ≠ [] ∧
    wrapText w "" maxWidth = [""] := by
  refine ⟨?_, ?_, ?_⟩
  · unfold wrapText
    rw [List.map_map]
    have hid : ∀ l : List Char, (String.data ∘ List.asString) l = l := by
      intro l
      simp [Function.comp]
      rw [show (List.asString l).data = (List.asString l).toList from rfl]
      exact List.toList_asString l
    rw [List.map_congr_left fun l _ => hid l, List.map_id']
    simpa using wrapTextAux_flatten w maxWidth text.data [] 0
  · unfold wrapText
    intro h
    exact wrapTextAux_ne_nil w maxWidth text.data [] 0 (List.map_eq_nil_iff.mp h)
  · unfold wrapText
    have hdata : ("" : String).data = [] := rfl
    rw [hdata]
    unfold wrapTextAux
    simp [String.asString_nil]

/-- Witness for C10: wrapping `"ab"` at width 10 with unit glyph widths
concatenates back to exactly `"ab"`. -/
theorem wrap_concat_id_witness :
    ((wrapText (fun _ => (1 : ℚ)) "ab" 10).map String.data).flatten =
      ("ab" : String).data :=
  (wrap_concat_id (fun _ => (1 : ℚ)) "ab" 10).1

theorem wrapTextAux_width_le (w : Char → ℚ) (maxWidth : ℚ) :
    ∀ (chars line : List Char) (n : ℕ),
      (∀ c ∈ chars, w c ≤ maxWidth) →
      measureChars w line ≤ maxWidth →
      (n = 0 → line = []) →
      ∀ l ∈ wrapTextAux w maxWidth chars line n, measureChars w l ≤ maxWidth := by
  intro chars
  induction chars with
  | nil =>
    intro line n _ hline _ l hl
    simp [wrapTextAux] at hl
    rw [hl]
    exact hline
  | cons c rest ih =>
    intro line n hc hline hn0 l hl
    have hcw : w c ≤ maxWidth := hc c (List.mem_cons_self c rest)
    have hcrest : ∀ x ∈ rest, w x ≤ maxWidth :=
      fun x hx => hc x (List.mem_cons_of_mem c hx)
    have hsingle : measureChars w [c] ≤ maxWidth := by
      simpa [measureChars] using hcw
    unfold wrapTextAux at hl
    by_cases hcond : measureChars w (line ++ [c]) > maxWidth ∧ 0 < n
    · rw [if_pos hcond] at hl
      rcases List.mem_cons.mp hl with rfl | hl2
      · exact hline
      · exact ih [c] (n + 1) hcrest hsingle
          (fun h => absurd h (Nat.succ_ne_zero n)) l hl2
    · rw [if_neg hcond] at hl
      have hfit : measureChars w (line ++ [c]) ≤ maxWidth := by
        rcases Nat.eq_zero_or_pos n with hn | hn
        · rw [hn0 hn]
          simpa [measureChars] using hcw
        · have := fun hgt => hcond ⟨hgt, hn⟩
          exact not_lt.mp this
      exact ih (line ++ [c]) (n + 1) hcrest hfit
        (fun h => absurd h (Nat.succ_ne_zero n)) l hl

/-- Amended claim C5: provided every single glyph of the input fits the
available width (a lone character wider than the frame cannot be broken
further and becomes its own overflowing line), every line produced by the
text-wrapping routine has measured width at most the available width; and
regardless, at most 5 wrapped lines are drawn, additional lines being
truncated. -/
theorem wrap_lines_fit (w : Char → ℚ) (text : String) (maxWidth : ℚ)
    (hw : ∀ c ∈ text.data, w c ≤ maxWidth) (h0 : 0 ≤ maxWidth) :
    (∀ l ∈ wrapText w text maxWidth, measureText w l ≤ maxWidth) ∧
    (drawnNoteLines w text maxWidth).length ≤ 5 ∧
    drawnNoteLines w text maxWidth = (wrapText w text maxWidth).take 5 := by
  refine ⟨?_, ?_, rfl⟩
  · intro l hl
    unfold wrapText at hl
    rcases List.mem_map.mp hl with ⟨l2, hl2, rfl⟩
    have hm : measureText w (List.asString l2) = measureChars w l2 := by
      unfold measureText
      rw [show (List.asString l2).data = (List.asString l2).toList from rfl]
      rw [List.toList_asString]
    rw [hm]
    exact wrapTextAux_width_le w maxWidth text.data [] 0 hw
      (by simp [measureChars, h0]) (fun _ => rfl) l2 hl2
  · exact List.length_take_le 5 (wrapText w text maxWidth)

/-- Witness for the amended C5: three glyphs of width 1 wrapped to width
2 give the lines `["ab", "c"]`; the produced line `"ab"` fits the width. -/
theorem wrap_lines_fit_witness :
    measureText (fun _ => (1 : ℚ)) "ab" ≤ 2 := by
  have h := (wrap_lines_fit (fun _ => (1 : ℚ)) "abc" 2
    (fun c _ => by norm_num) (by norm_num)).1
  refine h "ab" ?_
  have hwrap : wrapText (fun _ => (1 : ℚ)) "abc" 2 = ["ab", "c"] := by
    unfold wrapText
    rw [show ("abc" : String).data = ['a', 'b', 'c'] from rfl]
    unfold wrapTextAux
    rw [if_neg (by simp)]
    unfold wrapTextAux
    rw [if_neg (by norm_num [measureChars])]
    unfold wrapTextAux
    rw [if_pos (by norm_num [measureChars])]
    unfold wrapTextAux
    rfl
  rw [hwrap]
  exact List.mem_cons_self _ _

/-- Counterexample to C5 as stated: with every glyph 2 units wide and an
available width of 1 unit, `wrapText` on `"ab"` yields the lines
`["a", "b"]`, each of measured width 2 — an emitted line strictly wider
than the available width, since a lone glyph cannot be force-broken. -/
theorem wrap_overflow_counterexample :
    ¬ (∀ l ∈ wrapText (fun _ => (2 : ℚ)) "ab" 1,
        measureText (fun _ => (2 : ℚ)) l ≤ 1) := by
  intro h
  have hdata : ("ab" : String).data = ['a', 'b'] := rfl
  have hwrap : wrapText (fun _ => (2 : ℚ)) "ab" 1 = ["a", "b"] := by
    unfold wrapText
    rw [hdata]
    unfold wrapTextAux
    rw [if_neg (by norm_num [measureChars])]
    unfold wrapTextAux
    rw [if_pos (by norm_num [measureChars])]
    unfold wrapTextAux
    rfl
  have hmem : ("a" : String) ∈ wrapText (fun _ => (2 : ℚ)) "ab" 1 := by
    rw [hwrap]
    exact List.mem_cons_self _ _
  have := h "a" hmem
  have hma : measureText (fun _ => (2 : ℚ)) "a" = 2 := by
    norm_num [measureText, measureChars, show ("a" : String).data = ['a'] from rfl]
  rw [hma] at this
  norm_num at this

/-! ### PCM audio decoding (src/services/gemini.js, decodeAudioData, lines 16-36) -/

/-- A `Uint8Array` view: the underlying (possibly shared) `ArrayBuffer`
as a byte list, together with the view's `byteOffset` and `byteLength`. -/
structure ByteView where
  buffer : List ℕ
  byteOffset : ℕ
  byteLength : ℕ

/-- The byte-exact copy taken by src/services/gemini.js line 23:
`buffer.slice(byteOffset, byteOffset + byteLength)`. -/
def sliceBytes (v : ByteView) : List ℕ :=
  (v.buffer.drop v.byteOffset).take v.byteLength

/-- One 16-bit little-endian signed sample from two bytes (an
`Int16Array` element). -/
def int16OfBytes (lo hi : ℕ) : ℤ :=
  if lo + 256 * hi < 32768 then (lo + 256 * hi : ℤ) else (lo + 256 * hi : ℤ) - 65536

/-- The consecutive 16-bit samples of a byte list (the elements of
`new Int16Array(buffer)`). -/
def int16Samples : List ℕ → List ℤ
  | lo :: hi :: rest => int16OfBytes lo hi :: int16Samples rest
  | _ => []

/-- A decoded `AudioBuffer`: channel count, sample rate, and per-channel
normalized amplitudes. -/
structure AudioBuffer where
  numChannels : ℕ
  sampleRate : ℕ
  channels : List (List ℚ)

/-- Embeds `decodeAudioData(data, ctx, sampleRate, numChannels)`
(src/services/gemini.js lines 16-36): take a byte-exact copy of the
payload out of the shared buffer
(`const actualData = new Int16Array(buffer.slice(byteOffset, byteOffset + byteLength))`
— `new Int16Array(arrayBuffer)` raises `RangeError` when the copy's byte
length is odd), compute `frameCount = actualData.length / numChannels`,
and fill each channel with
`chData[i] = actualData[i * numChannels + ch] / 32768.0`. -/
def decodeAudioData (data : ByteView) (sampleRate numChannels : ℕ) :
    Except String AudioBuffer :=
  let copy := sliceBytes data
  if copy.length % 2 ≠ 0 then Except.error "RangeError" else
  let actualData := int16Samples copy
  let frameCount := actualData.length / numChannels
  Except.ok
    { numChannels := numChannels, sampleRate := sampleRate,
      channels := (List.range numChannels).map fun ch =>
        (List.range frameCount).map fun i =>
          ((actualData.getD (i * numChannels + ch) 0 : ℤ) : ℚ) / 32768 }

/-- Embeds the call site (src/services/gemini.js line 86; identically
src/services/geminiService.ts line 81):
`decodeAudioData(bytes, audioCtx, 24000, 1)` — fixed 24 kHz, mono; the
payload produced by `decode(base64)` is a fresh `Uint8Array` over its
whole buffer, so offset 0 and full length. -/
def decodeTtsPayload (payload : List ℕ) : Except String AudioBuffer :=
  decodeAudioData ⟨payload, 0, payload.length⟩ 24000 1

theorem int16OfBytes_range (lo hi : ℕ) (hlo : lo < 256) (hhi : hi < 256) :
    -32768 ≤ int16OfBytes lo hi ∧ int16OfBytes lo hi ≤ 32767 := by
  unfold int16OfBytes
  split <;> constructor <;> omega

theorem int16Samples_range (bytes : List ℕ) (hb : ∀ b ∈ bytes, b < 256) :
    ∀ s ∈ int16Samples bytes, -32768 ≤ s ∧ s ≤ 32767 := by
  induction bytes using int16Samples.induct with
  | case1 lo hi rest ih =>
    intro s hs
    rw [show int16Samples (lo :: hi :: rest) =
        int16OfBytes lo hi :: int16Samples rest from rfl] at hs
    rcases List.mem_cons.mp hs with rfl | hs2
    · exact int16OfBytes_range lo hi (hb lo (by simp)) (hb hi (by simp))
    · exact ih (fun b hbm => hb b (by simp [hbm])) s hs2
  | case2 bs h =>
    intro s hs
    cases bs with
    | nil => simp [int16Samples] at hs
    | cons b rest =>
      cases rest with
      | nil => simp [int16Samples] at hs
      | cons b2 rest2 => exact absurd rfl (h b b2 rest2)

theorem amplitude_bound (s : ℤ) (h1 : -32768 ≤ s) (h2 : s ≤ 32767) :
    -1 ≤ (s : ℚ) / 32768 ∧ (s : ℚ) / 32768 ≤ 1 := by
  have c1 : (-32768 : ℚ) ≤ (s : ℚ) := by exact_mod_cast h1
  have c2 : (s : ℚ) ≤ 32767 := by exact_mod_cast h2
  constructor
  · rw [le_div_iff₀ (by norm_num : (0 : ℚ) < 32768)]
    linarith
  · rw [div_le_one (by norm_num : (0 : ℚ) < 32768)]
    linarith

theorem range_map_getD (xs : List ℤ) (f : ℤ → ℚ) :
    (List.range xs.length).map (fun i => f (xs.getD i 0)) = xs.map f := by
  induction xs with
  | nil => simp
  | cons x rest ih =>
    rw [List.length_cons, List.range_succ_eq_map]
    simp only [List.map_cons, List.map_map, List.getD_cons_zero, Function.comp_def,
      List.getD_cons_succ]
    rw [← ih]

theorem decodeAudioData_ok (v : ByteView) (hev : (sliceBytes v).length % 2 = 0) :
    decodeAudioData v 24000 1 =
      Except.ok
        { numChannels := 1, sampleRate := 24000,
          channels :=
            [(int16Samples (sliceBytes v)).map fun s => ((s : ℤ) : ℚ) / 32768] } := by
  unfold decodeAudioData
  rw [if_neg (by omega)]
  simp only [show List.range 1 = [0] from rfl, List.map_cons, List.map_nil,
    Nat.div_one, Nat.mul_one, Nat.add_zero]
  rw [range_map_getD (int16Samples (sliceBytes v)) (fun s => ((s : ℤ) : ℚ) / 32768)]

/-- Claim C4: `decodeAudioData` decodes the PCM samples from a byte-exact
copy of the payload bytes — its result depends only on the bytes
`buffer[byteOffset .. byteOffset + byteLength)` and is therefore the same
for any view with the same payload slice, regardless of the view's byte
offset (no 2-byte-alignment requirement on the shared transport buffer);
the call site fixes 24 kHz and mono; each decoded amplitude is `s / 32768`
for the 16-bit signed sample `s`, and lies in `[-1, 1]`. -/
theorem audio_decode_props (v : ByteView) (hb : ∀ b ∈ v.buffer, b < 256) :
    (∀ v2 : ByteView, sliceBytes v2 = sliceBytes v →
      decodeAudioData v2 24000 1 = decodeAudioData v 24000 1) ∧
    decodeTtsPayload (sliceBytes v) =
      decodeAudioData ⟨sliceBytes v, 0, (sliceBytes v).length⟩ 24000 1 ∧
    ((sliceBytes v).length % 2 = 0 →
      decodeAudioData v 24000 1 =
        Except.ok
          { numChannels := 1, sampleRate := 24000,
            channels :=
              [(int16Samples (sliceBytes v)).map fun s => ((s : ℤ) : ℚ) / 32768] }) ∧
    (∀ s ∈ int16Samples (sliceBytes v),
      -32768 ≤ s ∧ s ≤ 32767 ∧ -1 ≤ (s : ℚ) / 32768 ∧ (s : ℚ) / 32768 ≤ 1) := by
  refine ⟨?_, rfl, decodeAudioData_ok v, ?_⟩
  · intro v2 h2
    unfold decodeAudioData
    rw [h2]
  · intro s hs
    have hslice : ∀ b ∈ sliceBytes v, b < 256 := by
      intro b hbm
      exact hb b (List.mem_of_mem_drop (List.mem_of_mem_take hbm))
    obtain ⟨hr1, hr2⟩ := int16Samples_range (sliceBytes v) hslice s hs
    obtain ⟨ha1, ha2⟩ := amplitude_bound s hr1 hr2
    exact ⟨hr1, hr2, ha1, ha2⟩

/-- Witness for C4: the 4-byte payload `[1, 0, 0, 255]` (samples `1` and
`-256`) decodes at offset 0 into a mono 24 kHz buffer with amplitudes
`1/32768` and `-1/128`. -/
theorem audio_decode_witness :
    decodeAudioData ⟨[1, 0, 0, 255], 0, 4⟩ 24000 1 =
      Except.ok
        { numChannels := 1, sampleRate := 24000,
          channels :=
            [(int16Samples (sliceBytes ⟨[1, 0, 0, 255], 0, 4⟩)).map
              fun s => ((s : ℤ) : ℚ) / 32768] } :=
  (audio_decode_props ⟨[1, 0, 0, 255], 0, 4⟩ (by decide)).2.2.1 (by decide)

end PdfVideo
